import Mathlib

/-!
Shallow embedding of the retrieval-and-answer pipeline of this repository
(the main file repo-rag.js and the debug variant repo-rag-debug.js).

Text is modelled as `List Char`.  The JavaScript character classes used by the
source (toLowerCase, the whitespace class, the dot of regular expressions) are
modelled on their ASCII subset; every string the pipeline manipulates here is
ASCII.  The regular-expression literals of the source are each embedded as a
dedicated matcher function whose deterministic shape is justified, match by
match, in its doc comment; the engine's leftmost scan is `scanFirst`.
-/

/-- Text is modelled as a list of characters. -/
abbrev Str : Type := List Char

/-- ASCII part of the JavaScript whitespace class (space, tab, newline,
carriage return, vertical tab, form feed). -/
def isWsC (c : Char) : Bool :=
  c = ' ' || c = '\t' || c = '\n' || c = '\r' || c = Char.ofNat 11 || c = Char.ofNat 12

/-- The JavaScript regular-expression dot: any character except a line
terminator (ASCII model: everything but newline and carriage return). -/
def isDotC (c : Char) : Bool := !(c = '\n' || c = '\r')

/-- JavaScript toLowerCase (ASCII model). -/
def lowerL (s : Str) : Str := s.map Char.toLower

/-- Boolean test: the first argument is a prefix of the second. -/
def hasPrefixL : Str → Str → Bool
  | [], _ => true
  | _ :: _, [] => false
  | p :: ps, c :: cs => p = c && hasPrefixL ps cs

/-- Index of the leftmost occurrence of pat in s: the smallest i such that pat
is a prefix of s.drop i, if any. -/
def findIdx (pat : Str) : Str → Option Nat
  | [] => if hasPrefixL pat [] then some 0 else none
  | c :: cs =>
    if hasPrefixL pat (c :: cs) then some 0 else (findIdx pat cs).map (fun i => i + 1)

/-- JavaScript String.includes. -/
def containsSub (s pat : Str) : Bool := (findIdx pat s).isSome

/-- Step of the non-overlapping occurrence counter: skip counts the characters
of the current match still to be stepped over, so a found match of length L
continues the scan L characters further (structural recursion). -/
def countOccursAux (pat : Str) : Str → Nat → Nat
  | [], _ => 0
  | _ :: cs, skip + 1 => countOccursAux pat cs skip
  | c :: cs, 0 =>
    if 0 < pat.length ∧ hasPrefixL pat (c :: cs) = true then
      countOccursAux pat cs (pat.length - 1) + 1
    else countOccursAux pat cs 0

/-- Number of leftmost non-overlapping occurrences of pat in s: the g-match
count of a pattern that is literal, every character free of regular-expression
metacharacters. -/
def countOccurs (pat s : Str) : Nat := countOccursAux pat s 0

/-- Characters with no special meaning in a JavaScript regular expression.  A
pattern made only of such characters is literal: new RegExp compiles it and a
global match counts its leftmost non-overlapping occurrences.  The excluded
characters (backslash, caret, dollar, dot, bar, question mark, star, plus,
parentheses, square brackets, curly brackets) cover every ECMAScript pattern
metacharacter. -/
def regexSafeChar (c : Char) : Bool :=
  !(c = '\\' || c = '^' || c = '$' || c = '.' || c = '|' || c = '?' || c = '*' || c = '+'
    || c = '(' || c = ')' || c = '[' || c = ']' || c = Char.ofNat 123 || c = Char.ofNat 125)

/-- One step of the whitespace tokenizer: acc holds the characters of the
current token in reverse. -/
def splitWsAux : Str → Str → List Str
  | [], acc => if acc.isEmpty then [] else [acc.reverse]
  | c :: cs, acc =>
    if isWsC c then
      (if acc.isEmpty then splitWsAux cs [] else acc.reverse :: splitWsAux cs [])
    else splitWsAux cs (c :: acc)

/-- JavaScript split on the whitespace regex: the maximal runs of
non-whitespace characters, in order.  (JS split can also emit empty fields at
the string's ends; the only use filters tokens by length > 2, which discards
empty fields, so they are not modelled.) -/
def splitWs (s : Str) : List Str := splitWsAux s []

/-- A chunk of the Chunk Store: its pageContent text plus opaque metadata. -/
structure Chunk where
  pageContent : Str
  metadata : List (Str × Str)
deriving DecidableEq

/-- Keyword set of a question: lowercase it, split on whitespace, and keep the
tokens of length greater than 2. -/
def keywordsOf (question : Str) : List Str :=
  (splitWs (lowerL question)).filter (fun w => 2 < w.length)

/-- Score of one chunk content: the sum over the keywords of the occurrence
count of each keyword in the lowercased content (the reduce of the source). -/
def chunkScore (keywords : List Str) (content : Str) : Nat :=
  keywords.foldl (fun count kw => count + countOccurs kw (lowerL content)) 0

/-- The (doc, score) pairs, built by map over the store in store order. -/
def scoreDocs (docs : List Chunk) (keywords : List Str) : List (Chunk × Nat) :=
  docs.map (fun doc => (doc, chunkScore keywords doc.pageContent))

/-- The sort order of the comparator (a, b) => b.score - a.score: descending by
score.  Array.prototype.sort is stable, as is mergeSort. -/
def scoreLe (a b : Chunk × Nat) : Bool := b.2 ≤ a.2

/-- The blank-line separator joining selected chunk contents. -/
def sepBlank : Str := ['\n', '\n']

/-- retriever.invoke: score every chunk against the question's keywords, stable
sort descending by score, take the first 6 and join their contents with a
blank line. -/
def retrieverInvoke (docs : List Chunk) (question : Str) : Str :=
  List.intercalate sepBlank
    ((((scoreDocs docs (keywordsOf question)).mergeSort scoreLe).take 6).map
      (fun s => s.1.pageContent))

/-- retriever.invoke with the Chunk Store threaded through the call: the pair
holds the returned context and the docs collection as it stands after the
call.  No step of the source writes to docs: the map builds a fresh scores
array and the in-place sort acts on that fresh array only. -/
def retrieverInvokeWithStore (docs : List Chunk) (question : Str) : Str × List Chunk :=
  let keywords := keywordsOf question
  let scores := scoreDocs docs keywords
  let sorted := scores.mergeSort scoreLe
  let context := List.intercalate sepBlank ((sorted.take 6).map (fun s => s.1.pageContent))
  (context, docs)

/-- The JavaScript regular-expression engine behind the source's
contentLower.match(new RegExp(kw, g)): matchCount kw s is the match count
((s.match(..) or the empty array).length), and the error case models a
SyntaxError thrown by new RegExp (the source does not escape keywords).
ECMAScript fixes the behaviour whenever every character of the pattern is
free of metacharacters: the pattern is literal and the global match count is
the number of leftmost non-overlapping occurrences; literal_matches packages
that guarantee.  On other keywords the engine is left abstract: it may count
by pattern semantics (the keyword this? also matches thi) or throw at
construction (the keyword c++ has a quantifier with nothing to repeat). -/
structure RegexEngine where
  matchCount : Str → Str → Except Str Nat
  literal_matches : ∀ kw s, (∀ c ∈ kw, regexSafeChar c = true) →
    matchCount kw s = Except.ok (countOccurs kw s)

/-- The reduce of retriever.invoke under an explicit engine: the first keyword
whose pattern construction throws aborts the whole score. -/
def chunkScoreE (eng : RegexEngine) (keywords : List Str) (content : Str) : Except Str Nat :=
  keywords.foldlM (fun count kw => (eng.matchCount kw (lowerL content)).map (fun n => count + n)) 0

/-- The scores map of retriever.invoke under an explicit engine: a throw inside
the map callback propagates out of the whole map. -/
def scoreDocsE (eng : RegexEngine) (docs : List Chunk) (keywords : List Str) :
    Except Str (List (Chunk × Nat)) :=
  docs.mapM (fun doc => (chunkScoreE eng keywords doc.pageContent).map (fun n => (doc, n)))

/-- retriever.invoke with the regex engine explicit: a SyntaxError raised while
scoring propagates (caught only by the chain's boundary), otherwise the stable
descending sort, take 6 and blank-line join as in retrieverInvoke. -/
def retrieverInvokeE (eng : RegexEngine) (docs : List Chunk) (question : Str) :
    Except Str Str :=
  (scoreDocsE eng docs (keywordsOf question)).map (fun scores =>
    List.intercalate sepBlank (((scores.mergeSort scoreLe).take 6).map
      (fun s => s.1.pageContent)))

/-- A concrete engine for witnesses and counterexamples: it implements the
guaranteed literal behaviour and throws on every pattern containing a
metacharacter.  The JavaScript engine accepts some of those patterns with
non-literal semantics (this? is valid), but on the counterexample's keyword
c++ it throws exactly like this one. -/
def engStrict : RegexEngine where
  matchCount := fun kw s =>
    if _h : ∀ c ∈ kw, regexSafeChar c = true then Except.ok (countOccurs kw s)
    else Except.error "Invalid regular expression".toList
  literal_matches := fun _kw _s h => dif_pos h

/-- Leftmost-match scan of a matcher over every start position of the string:
the regex engine's search loop. -/
def scanFirst (mAt : Str → Option Str) : Str → Option Str
  | [] => none
  | c :: cs =>
    match mAt (c :: cs) with
    | some r => some r
    | none => scanFirst mAt cs

/-- The literal marker of the question regex. -/
def qMarker : Str := "Question: ".toList

/-- Anchored match of the question regex at the start of s: the marker, then a
lazy nonempty group of dot characters, then a literal newline.  The lazy group
ends at the first non-dot character, which must be exactly a newline; returns
the group. -/
def qmatchAt (s : Str) : Option Str :=
  if hasPrefixL qMarker s then
    (let after := List.drop qMarker.length s
     let run := List.takeWhile isDotC after
     if 0 < run.length ∧ (List.drop run.length after).head? = some '\n' then some run
     else none)
  else none

/-- The questionMatch regex search of extractAnswer. -/
def findQuestion : Str → Option Str := scanFirst qmatchAt

/-- The literal opening marker of the context regex. -/
def cStart : Str := "Context:\n".toList

/-- The literal closing marker of the context regex. -/
def cEnd : Str := "\n\nQuestion:".toList

/-- Smallest j with 1 ≤ j and pat a prefix of s.drop j: the end position of the
lazy nonempty any-character group. -/
def findFrom1 (pat : Str) : Str → Option Nat
  | [] => none
  | _ :: cs => (findIdx pat cs).map (fun i => i + 1)

/-- Anchored match of the context regex at the start of s: the opening marker,
then a lazy nonempty group of arbitrary characters ending at the first
following occurrence of the closing marker; returns the group. -/
def cmatchAt (s : Str) : Option Str :=
  if hasPrefixL cStart s then
    (match findFrom1 cEnd (List.drop cStart.length s) with
     | some j => some (List.take j (List.drop cStart.length s))
     | none => none)
  else none

/-- The contextMatch regex search of extractAnswer. -/
def findContext : Str → Option Str := scanFirst cmatchAt

/-- The question field of extractAnswer before lowercasing: group 1 on a match,
the empty string otherwise. -/
def questionFieldRaw (input : Str) : Str := (findQuestion input).getD []

/-- The context field of extractAnswer before lowercasing: group 1 on a match,
the empty string otherwise. -/
def contextFieldRaw (input : Str) : Str := (findContext input).getD []

/-- Anchored match of the name regex at the start of s: the literal navdeep,
then a greedy nonempty whitespace run, then the literal singh; returns the
matched text.  The run is the maximal whitespace run: a shorter run would be
followed by a whitespace character, never the letter s.  The context this
regex searches is already lowercased, so the ignore-case flag is immaterial. -/
def nmatchAt (s : Str) : Option Str :=
  if hasPrefixL "navdeep".toList s then
    (let after := List.drop 7 s
     let ws := List.takeWhile isWsC after
     if 0 < ws.length ∧ hasPrefixL "singh".toList (List.drop ws.length after) then
       some ("navdeep".toList ++ ws ++ "singh".toList)
     else none)
  else none

/-- The nameMatch regex search of rule (a). -/
def nameSearch : Str → Option Str := scanFirst nmatchAt

/-- Anchored match of the experience regex at the start of s; returns capture
group 1, the digits.  Backtracking collapses to this deterministic pipeline:
a shorter digit run is followed by a digit, which no continuation accepts; a
shorter whitespace run is followed by whitespace, which no continuation
accepts; the year and yr branches are separated by their second character; if
consuming the optional s fails, skipping it meets that same s, which no
continuation accepts; if consuming the optional of-group fails, skipping it
meets the letter o, which the final alternation rejects. -/
def expMatchAt (s : Str) : Option Str :=
  let digits := List.takeWhile Char.isDigit s
  if digits.length = 0 then none
  else
    let r1 := List.drop digits.length s
    let r2 := List.drop (List.takeWhile isWsC r1).length r1
    match
      (if hasPrefixL "year".toList r2 then some (List.drop 4 r2)
       else if hasPrefixL "yr".toList r2 then some (List.drop 2 r2)
       else none) with
    | none => none
    | some r3 =>
      let r4 := if r3.head? = some 's' then List.drop 1 r3 else r3
      let r5 := List.drop (List.takeWhile isWsC r4).length r4
      let r6 :=
        if hasPrefixL "of".toList r5 then
          List.drop (List.takeWhile isWsC (List.drop 2 r5)).length (List.drop 2 r5)
        else r5
      if hasPrefixL "experience".toList r6 || hasPrefixL "exp".toList r6 then some digits
      else none

/-- The expMatch regex search of rule (b). -/
def expSearch : Str → Option Str := scanFirst expMatchAt

/-- The fixed skill vocabulary of rule (c), in vocabulary order. -/
def skillsList : List Str :=
  ["React".toList, "JavaScript".toList, "NodeJS".toList, "ExpressJS".toList,
   "Redux".toList, "HTML5".toList, "CSS3".toList, "jQuery".toList]

/-- Rule (a), the name question: nameMatch[0] out of the lowercased context if
found, the fixed fallback literal otherwise. -/
def ruleAAnswer (context : Str) : Str := (nameSearch context).getD "Navdeep Singh".toList

/-- Rule (b), the experience question: the digits plus a years suffix if found,
the fixed not-found sentinel otherwise. -/
def ruleBAnswer (context : Str) : Str :=
  match expSearch context with
  | some d => d ++ " years".toList
  | none => "Experience duration not found in context".toList

/-- Rule (c), the skills question: the vocabulary entries whose lowercase form
occurs in the context, joined in vocabulary order, or the fixed sentinel. -/
def ruleCAnswer (context : Str) : Str :=
  let found := skillsList.filter (fun sk => containsSub context (lowerL sk))
  if 0 < found.length then List.intercalate ", ".toList found
  else "Skills not clearly specified".toList

/-- extractAnswer of the main file repo-rag.js: parse the prompt text back into
question and context with the two regexes (an absent marker leaves the empty
string), lowercase both, then run the ordered rule chain, first match wins;
with no matching rule the input is returned unchanged. -/
def extractAnswer (input : Str) : Str :=
  let question := lowerL (questionFieldRaw input)
  let context := lowerL (contextFieldRaw input)
  if containsSub question "name".toList && containsSub question "portfolio".toList then
    ruleAAnswer context
  else if containsSub question "experience".toList && containsSub question "year".toList then
    ruleBAnswer context
  else if containsSub question "skill".toList || containsSub question "technology".toList then
    ruleCAnswer context
  else input

/-- extractAnswer of the debug file repo-rag-debug.js: same regex literals, same
rule chain, same literals; the debug variant only adds console logging (its
skills filter logs inside the predicate but returns the same boolean). -/
def extractAnswerD (input : Str) : Str :=
  let question := lowerL ((findQuestion input).getD [])
  let context := lowerL ((findContext input).getD [])
  if containsSub question "name".toList && containsSub question "portfolio".toList then
    (nameSearch context).getD "Navdeep Singh".toList
  else if containsSub question "experience".toList && containsSub question "year".toList then
    (match expSearch context with
     | some d => d ++ " years".toList
     | none => "Experience duration not found in context".toList)
  else if containsSub question "skill".toList || containsSub question "technology".toList then
    (let found := skillsList.filter (fun sk => containsSub context (lowerL sk))
     if 0 < found.length then List.intercalate ", ".toList found
     else "Skills not clearly specified".toList)
  else input

/-- llm.invoke of the main file repo-rag.js on a string input (typeof input is
string, so promptText is input).  The second component counts the calls made
to the external textGeneration service: the body contains no such call; with
a credential configured it runs the comment's Fallback to direct extraction
and returns this.extractAnswer(promptText).  hfConfigured models dataStore.hf
being non-null. -/
def llmInvokeMain (hfConfigured : Bool) (input : Str) : Str × Nat :=
  if !hfConfigured then ("Unable to generate answer - HF_API_KEY not set".toList, 0)
  else (extractAnswer input, 0)

/-- llm.invoke of the debug file repo-rag-debug.js on a string input.  svc
models dataStore.hf.textGeneration with the fixed model and parameters: it
either raises with a message or succeeds with the generated_text field (none
when the field is missing).  The second component counts service calls.  On
success the source returns generated_text when truthy and otherwise the
prompt text; on failure it returns this.extractAnswer(input). -/
def llmInvokeDebug (svc : Option (Str → Except Str (Option Str))) (input : Str) :
    Str × Nat :=
  match svc with
  | none => ("Unable to generate answer - HF_API_KEY not set".toList, 0)
  | some f =>
    match f input with
    | Except.ok gen =>
      (match gen with
       | some t => if t.isEmpty then input else t
       | none => input, 1)
    | Except.error _ => (extractAnswer input, 1)

/-- The prompt template string of createRAGChain. -/
def promptTemplate : Str :=
  ("Based on the following context, answer the question with a direct and exact answer. Be concise.\n\nContext:\n\x7bcontext\x7d\n\nQuestion: \x7bquestion\x7d\n\nAnswer (direct answer only):").toList

/-- JavaScript String.replace with a string pattern: first occurrence only. -/
def replaceFirst (s pat repl : Str) : Str :=
  match findIdx pat s with
  | some i => List.take i s ++ repl ++ List.drop (i + pat.length) s
  | none => s

/-- Prompt assembly of chain.invoke: substitute the context placeholder, then
the question placeholder, first occurrence each. -/
def assemblePrompt (context question : Str) : Str :=
  replaceFirst (replaceFirst promptTemplate "\x7bcontext\x7d".toList context)
    "\x7bquestion\x7d".toList question

/-- chain.invoke: retrieval, prompt assembly, generation, the whole sequence
wrapped in one try/catch that turns the message m of any stage error into the
string Error: m.  The two possibly-throwing stages are modelled as
Except-valued functions; prompt assembly is pure string replacement. -/
def chainInvoke (retrieve generate : Str → Except Str Str) (question : Str) : Str :=
  match retrieve question with
  | Except.error m => "Error: ".toList ++ m
  | Except.ok context =>
    match generate (assemblePrompt context question) with
    | Except.error m => "Error: ".toList ++ m
    | Except.ok r => r

/-! Helper lemmas about the embedded primitives. -/

theorem findIdx_nil (pat : Str) :
    findIdx pat [] = if hasPrefixL pat [] then some 0 else none := rfl

theorem findIdx_cons (pat : Str) (c : Char) (cs : Str) :
    findIdx pat (c :: cs) =
      if hasPrefixL pat (c :: cs) then some 0
      else (findIdx pat cs).map (fun i => i + 1) := rfl

theorem scanFirst_cons (mAt : Str → Option Str) (c : Char) (cs : Str) :
    scanFirst mAt (c :: cs) =
      match mAt (c :: cs) with
      | some r => some r
      | none => scanFirst mAt cs := rfl

theorem hasPrefixL_append (p t : Str) : hasPrefixL p (p ++ t) = true := by
  induction p with
  | nil => rfl
  | cons c cs ih => simp [hasPrefixL, ih]

theorem eq_append_of_hasPrefixL {p s : Str} (h : hasPrefixL p s = true) :
    ∃ t, s = p ++ t := by
  induction p generalizing s with
  | nil => exact ⟨s, rfl⟩
  | cons c cs ih =>
    cases s with
    | nil => simp [hasPrefixL] at h
    | cons d ds =>
      simp only [hasPrefixL, Bool.and_eq_true, decide_eq_true_eq] at h
      obtain ⟨t, ht⟩ := ih h.2
      exact ⟨t, by simp [h.1, ht]⟩

theorem findIdx_isSome_iff (pat s : Str) :
    (findIdx pat s).isSome = true ↔ ∃ i, hasPrefixL pat (List.drop i s) = true := by
  induction s with
  | nil =>
    cases hp : hasPrefixL pat [] with
    | true =>
      simp only [findIdx_nil, hp, if_true, Option.isSome_some, true_iff]
      exact ⟨0, by simpa using hp⟩
    | false =>
      simp [findIdx_nil, hp]
  | cons c cs ih =>
    cases hp : hasPrefixL pat (c :: cs) with
    | true =>
      simp only [findIdx_cons, hp, if_true, Option.isSome_some, true_iff]
      exact ⟨0, by simpa using hp⟩
    | false =>
      simp only [findIdx_cons, hp, Bool.false_eq_true, if_false]
      have hmap : (Option.map (fun i => i + 1) (findIdx pat cs)).isSome
          = (findIdx pat cs).isSome := by
        cases findIdx pat cs <;> rfl
      rw [hmap, ih]
      constructor
      · rintro ⟨i, hi⟩
        exact ⟨i + 1, by simpa using hi⟩
      · rintro ⟨i, hi⟩
        cases i with
        | zero =>
          simp only [List.drop_zero] at hi
          rw [hp] at hi
          exact absurd hi (by simp)
        | succ j => exact ⟨j, by simpa using hi⟩

theorem containsSub_decomp {s pat : Str} (h : containsSub s pat = true) :
    ∃ a b, s = a ++ pat ++ b := by
  unfold containsSub at h
  obtain ⟨i, hi⟩ := (findIdx_isSome_iff pat s).mp h
  obtain ⟨t, ht⟩ := eq_append_of_hasPrefixL hi
  refine ⟨List.take i s, t, ?_⟩
  conv_lhs => rw [← List.take_append_drop i s]
  rw [ht, List.append_assoc]

theorem not_hasPrefixL_of_not_containsSub {s pat : Str} (h : containsSub s pat = false)
    (i : Nat) : hasPrefixL pat (List.drop i s) = false := by
  by_contra hc
  have hc' : hasPrefixL pat (List.drop i s) = true := by
    cases hb : hasPrefixL pat (List.drop i s) with
    | true => rfl
    | false => exact absurd hb hc
  have : (findIdx pat s).isSome = true := (findIdx_isSome_iff pat s).mpr ⟨i, hc'⟩
  unfold containsSub at h
  rw [h] at this
  exact Bool.false_ne_true this

theorem findIdx_eq_some {pat s : Str} {k : Nat}
    (hlt : ∀ j, j < k → hasPrefixL pat (List.drop j s) = false)
    (hk : hasPrefixL pat (List.drop k s) = true) :
    findIdx pat s = some k := by
  induction k generalizing s with
  | zero =>
    simp only [List.drop_zero] at hk
    cases s with
    | nil => simp [findIdx_nil, hk]
    | cons c cs => simp [findIdx_cons, hk]
  | succ n ih =>
    have h0 := hlt 0 (Nat.succ_pos n)
    simp only [List.drop_zero] at h0
    cases s with
    | nil =>
      simp only [List.drop_nil] at hk
      rw [h0] at hk
      exact absurd hk (by simp)
    | cons c cs =>
      have hrec : findIdx pat cs = some n := by
        apply ih
        · intro j hj
          have := hlt (j + 1) (Nat.succ_lt_succ hj)
          simpa using this
        · simpa using hk
      simp [findIdx_cons, h0, hrec]

theorem scanFirst_append_none (mAt : Str → Option Str) (a tail : Str)
    (h : ∀ i, i < a.length → mAt (List.drop i (a ++ tail)) = none) :
    scanFirst mAt (a ++ tail) = scanFirst mAt tail := by
  induction a with
  | nil => rfl
  | cons c cs ih =>
    have h0 := h 0 (Nat.succ_pos _)
    simp only [List.drop_zero] at h0
    show scanFirst mAt (c :: (cs ++ tail)) = scanFirst mAt tail
    rw [scanFirst_cons]
    simp only [List.cons_append] at h0
    rw [h0]
    apply ih
    intro i hi
    have := h (i + 1) (Nat.succ_lt_succ hi)
    simpa using this

theorem scanFirst_isSome {mAt : Str → Option Str} {s : Str} (hnil : mAt [] = none)
    (h : ∃ i, (mAt (List.drop i s)).isSome = true) : (scanFirst mAt s).isSome = true := by
  induction s with
  | nil =>
    obtain ⟨i, hi⟩ := h
    simp only [List.drop_nil, hnil, Option.isSome_none] at hi
    exact absurd hi (by simp)
  | cons c cs ih =>
    obtain ⟨i, hi⟩ := h
    rw [scanFirst_cons]
    cases hm : mAt (c :: cs) with
    | some r => simp
    | none =>
      simp only
      apply ih
      cases i with
      | zero =>
        simp only [List.drop_zero] at hi
        rw [hm] at hi
        exact absurd hi (by simp)
      | succ j => exact ⟨j, by simpa using hi⟩

theorem scanFirst_some_elim {mAt : Str → Option Str} {s r : Str}
    (h : scanFirst mAt s = some r) : ∃ i, mAt (List.drop i s) = some r := by
  induction s with
  | nil => exact absurd h (by simp [scanFirst])
  | cons c cs ih =>
    rw [scanFirst_cons] at h
    cases hm : mAt (c :: cs) with
    | some x =>
      rw [hm] at h
      simp only [Option.some.injEq] at h
      exact ⟨0, by simp [hm, h]⟩
    | none =>
      rw [hm] at h
      simp only at h
      obtain ⟨i, hi⟩ := ih h
      exact ⟨i + 1, by simpa using hi⟩

theorem scanFirst_none {mAt : Str → Option Str} {s : Str}
    (h : ∀ i, mAt (List.drop i s) = none) : scanFirst mAt s = none := by
  induction s with
  | nil => rfl
  | cons c cs ih =>
    rw [scanFirst_cons]
    have h0 := h 0
    simp only [List.drop_zero] at h0
    rw [h0]
    simp only
    apply ih
    intro i
    have := h (i + 1)
    simpa using this

theorem takeWhile_append_of (p : Char → Bool) (q b : Str) (x : Char)
    (hq : ∀ c ∈ q, p c = true) (hx : p x = false) :
    List.takeWhile p (q ++ x :: b) = q := by
  induction q with
  | nil => simp [List.takeWhile_cons, hx]
  | cons c cs ih =>
    have hc := hq c (by simp)
    simp only [List.cons_append, List.takeWhile_cons, hc, if_true]
    rw [ih (fun d hd => hq d (by simp [hd]))]

theorem pairwise_of_all {α : Type} (R : α → α → Prop) (h : ∀ a b, R a b) :
    ∀ l : List α, l.Pairwise R
  | [] => List.Pairwise.nil
  | a :: l => List.Pairwise.cons (fun b _ => h a b) (pairwise_of_all R h l)

theorem scanFirst_head_some {mAt : Str → Option Str} {s r : Str} (hs : s ≠ [])
    (h : mAt s = some r) : scanFirst mAt s = some r := by
  cases s with
  | nil => exact absurd rfl hs
  | cons c cs => rw [scanFirst_cons, h]

theorem qmatchAt_none {s : Str} (h : hasPrefixL qMarker s = false) : qmatchAt s = none := by
  simp [qmatchAt, h]

theorem cmatchAt_none {s : Str} (h : hasPrefixL cStart s = false) : cmatchAt s = none := by
  simp [cmatchAt, h]

theorem qmatchAt_eq (q b : Str) (hq1 : q ≠ []) (hq2 : ∀ c ∈ q, isDotC c = true) :
    qmatchAt (qMarker ++ (q ++ '\n' :: b)) = some q := by
  have hpre : hasPrefixL qMarker (qMarker ++ (q ++ '\n' :: b)) = true := hasPrefixL_append _ _
  have hdrop : List.drop qMarker.length (qMarker ++ (q ++ '\n' :: b)) = q ++ '\n' :: b :=
    List.drop_left _ _
  have hrun : List.takeWhile isDotC (q ++ '\n' :: b) = q :=
    takeWhile_append_of _ _ _ _ hq2 (by decide)
  have hdrop2 : List.drop q.length (q ++ '\n' :: b) = '\n' :: b := List.drop_left _ _
  have hlen : 0 < q.length := List.length_pos.mpr hq1
  unfold qmatchAt
  rw [hpre]
  simp only [if_true, hdrop, hrun, hdrop2, List.head?_cons, hlen, true_and]

theorem cmatchAt_eq (ctx b : Str) (hne : ctx ≠ [])
    (hin : ∀ j, 1 ≤ j → j < ctx.length →
      hasPrefixL cEnd (List.drop j (ctx ++ (cEnd ++ b))) = false) :
    cmatchAt (cStart ++ (ctx ++ (cEnd ++ b))) = some ctx := by
  have hpre : hasPrefixL cStart (cStart ++ (ctx ++ (cEnd ++ b))) = true := hasPrefixL_append _ _
  have hdrop : List.drop cStart.length (cStart ++ (ctx ++ (cEnd ++ b))) = ctx ++ (cEnd ++ b) :=
    List.drop_left _ _
  cases hctx : ctx with
  | nil => exact absurd hctx hne
  | cons c0 ctx2 =>
    have hidx : findIdx cEnd (ctx2 ++ (cEnd ++ b)) = some ctx2.length := by
      apply findIdx_eq_some
      · intro j hj
        have := hin (j + 1) (Nat.succ_pos j) (by simp [hctx]; omega)
        rw [hctx] at this
        simpa using this
      · rw [List.drop_left]
        exact hasPrefixL_append _ _
    have hfrom : findFrom1 cEnd (ctx ++ (cEnd ++ b)) = some ctx.length := by
      rw [hctx]
      show (findIdx cEnd (ctx2 ++ (cEnd ++ b))).map (fun i => i + 1) = some (ctx2.length + 1)
      rw [hidx]
      rfl
    have htake : List.take ctx.length (ctx ++ (cEnd ++ b)) = ctx := List.take_left _ _
    rw [← hctx]
    unfold cmatchAt
    rw [hpre]
    simp only [if_true, hdrop, hfrom, htake]

theorem nmatchAt_here (t : Str) :
    nmatchAt ("navdeep singh".toList ++ t) = some ("navdeep singh".toList) := rfl

theorem nmatchAt_shape {s r : Str} (h : nmatchAt s = some r) :
    ∃ ws, 0 < ws.length ∧ (∀ c ∈ ws, isWsC c = true)
      ∧ r = "navdeep".toList ++ ws ++ "singh".toList := by
  unfold nmatchAt at h
  split at h
  · simp only at h
    split at h
    · rename_i hcond
      simp only [Option.some.injEq] at h
      exact ⟨_, hcond.1, fun c hcm => List.mem_takeWhile_imp hcm, h.symm⟩
    · exact absurd h (by simp)
  · exact absurd h (by simp)

theorem expMatchAt_digits {s d : Str} (h : expMatchAt s = some d) :
    ∃ c, d.head? = some c ∧ c.isDigit = true := by
  have key : d = List.takeWhile Char.isDigit s ∧ (List.takeWhile Char.isDigit s).length ≠ 0 := by
    unfold expMatchAt at h
    dsimp only at h
    split at h
    · exact absurd h (by simp)
    · rename_i hlen
      split at h
      · exact absurd h (by simp)
      · repeat' split at h
        all_goals
          first
            | (simp only [Option.some.injEq] at h; exact ⟨h.symm, hlen⟩)
            | simp at h
  obtain ⟨hdd, hlen⟩ := key
  cases htw : List.takeWhile Char.isDigit s with
  | nil => rw [htw] at hlen; simp at hlen
  | cons c cs =>
    refine ⟨c, ?_, List.mem_takeWhile_imp (by rw [htw]; exact List.mem_cons_self c cs)⟩
    rw [hdd, htw]
    rfl

theorem nameSearch_shape {s r : Str} (h : nameSearch s = some r) :
    ∃ ws, 0 < ws.length ∧ (∀ c ∈ ws, isWsC c = true)
      ∧ r = "navdeep".toList ++ ws ++ "singh".toList := by
  obtain ⟨i, hi⟩ := scanFirst_some_elim (h : scanFirst nmatchAt s = some r)
  exact nmatchAt_shape hi

theorem nameSearch_isSome_of_occurrence {s : Str}
    (h : ∃ a b, s = a ++ "navdeep singh".toList ++ b) :
    (nameSearch s).isSome = true := by
  obtain ⟨a, b, hab⟩ := h
  apply scanFirst_isSome rfl
  refine ⟨a.length, ?_⟩
  rw [hab, List.append_assoc, List.drop_left, nmatchAt_here]
  rfl

theorem ruleAAnswer_head (ctx : Str) :
    (ruleAAnswer ctx).head? = some 'n' ∨ (ruleAAnswer ctx).head? = some 'N' := by
  unfold ruleAAnswer
  cases hn : nameSearch ctx with
  | none => right; rfl
  | some r =>
    left
    obtain ⟨ws, _, _, hr⟩ := nameSearch_shape hn
    rw [Option.getD_some, hr]
    rfl

theorem ruleBAnswer_head (ctx : Str) :
    (ruleBAnswer ctx).head? = some 'E'
      ∨ ∃ c, (ruleBAnswer ctx).head? = some c ∧ c.isDigit = true := by
  unfold ruleBAnswer
  cases he : expSearch ctx with
  | none => left; rfl
  | some d =>
    right
    obtain ⟨i, hi⟩ := scanFirst_some_elim (he : scanFirst expMatchAt ctx = some d)
    obtain ⟨c, hc1, hc2⟩ := expMatchAt_digits hi
    refine ⟨c, ?_, hc2⟩
    cases d with
    | nil => simp at hc1
    | cons x xs =>
      simp only [List.head?_cons, Option.some.injEq] at hc1
      simp [hc1]

theorem ruleA_ne_ruleB (c1 c2 : Str) : ruleAAnswer c1 ≠ ruleBAnswer c2 := by
  intro heq
  have ha := ruleAAnswer_head c1
  have hb := ruleBAnswer_head c2
  rw [heq] at ha
  rcases ha with ha | ha <;> rcases hb with hb | hb
  · rw [ha] at hb
    exact absurd hb (by decide)
  · obtain ⟨c, hc1, hc2⟩ := hb
    rw [ha] at hc1
    have : c = 'n' := by
      simpa using hc1.symm
    rw [this] at hc2
    exact absurd hc2 (by decide)
  · rw [ha] at hb
    exact absurd hb (by decide)
  · obtain ⟨c, hc1, hc2⟩ := hb
    rw [ha] at hc1
    have : c = 'N' := by
      simpa using hc1.symm
    rw [this] at hc2
    exact absurd hc2 (by decide)

theorem extractAnswer_ruleA {p : Str}
    (h1 : containsSub (lowerL (questionFieldRaw p)) "name".toList = true)
    (h2 : containsSub (lowerL (questionFieldRaw p)) "portfolio".toList = true) :
    extractAnswer p = ruleAAnswer (lowerL (contextFieldRaw p)) := by
  have hcond : (containsSub (lowerL (questionFieldRaw p)) "name".toList
      && containsSub (lowerL (questionFieldRaw p)) "portfolio".toList) = true := by
    rw [h1, h2]
    rfl
  unfold extractAnswer
  dsimp only
  rw [hcond]
  simp

theorem append_ne_nil_left {a b : Str} (h : a ≠ []) : a ++ b ≠ [] := by
  cases a with
  | nil => exact absurd rfl h
  | cons c cs => simp

theorem foldl_matchCount_ok (eng : RegexEngine) (content : Str) (keywords : List Str)
    (hsafe : ∀ kw ∈ keywords, ∀ c ∈ kw, regexSafeChar c = true) :
    ∀ acc : Nat,
      List.foldlM (fun count kw => (eng.matchCount kw (lowerL content)).map (fun n => count + n))
          acc keywords
        = Except.ok (List.foldl (fun count kw => count + countOccurs kw (lowerL content))
            acc keywords) := by
  induction keywords with
  | nil => intro acc; rfl
  | cons kw ks ih =>
    intro acc
    have hkw := eng.literal_matches kw (lowerL content)
      (fun c hc => hsafe kw (List.mem_cons_self kw ks) c hc)
    rw [List.foldlM_cons, hkw]
    show List.foldlM
        (fun count kw => (eng.matchCount kw (lowerL content)).map (fun n => count + n))
        (acc + countOccurs kw (lowerL content)) ks = _
    rw [ih (fun k hk c hc => hsafe k (List.mem_cons_of_mem kw hk) c hc)]
    rfl

theorem chunkScoreE_ok (eng : RegexEngine) (keywords : List Str) (content : Str)
    (hsafe : ∀ kw ∈ keywords, ∀ c ∈ kw, regexSafeChar c = true) :
    chunkScoreE eng keywords content = Except.ok (chunkScore keywords content) :=
  foldl_matchCount_ok eng content keywords hsafe 0

theorem scoreDocsE_ok (eng : RegexEngine) (docs : List Chunk) (keywords : List Str)
    (hsafe : ∀ kw ∈ keywords, ∀ c ∈ kw, regexSafeChar c = true) :
    scoreDocsE eng docs keywords = Except.ok (scoreDocs docs keywords) := by
  induction docs with
  | nil => rfl
  | cons doc ds ih =>
    unfold scoreDocsE at ih ⊢
    rw [List.mapM_cons]
    rw [chunkScoreE_ok eng keywords doc.pageContent hsafe, ih]
    rfl

theorem retrieverInvokeE_ok (eng : RegexEngine) (docs : List Chunk) (question : Str)
    (hsafe : ∀ kw ∈ keywordsOf question, ∀ c ∈ kw, regexSafeChar c = true) :
    retrieverInvokeE eng docs question = Except.ok (retrieverInvoke docs question) := by
  unfold retrieverInvokeE
  rw [scoreDocsE_ok eng docs _ hsafe]
  rfl

/-! Claim theorems. -/

/-- C2 counterexample: on the question fix c++ bug, the keyword c++ reaches
new RegExp, whose construction throws a SyntaxError (a quantifier with
nothing to repeat) in JavaScript exactly as in the strict engine, so
retriever.invoke propagates an exception instead of returning chunk contents:
the original for-every-question claim fails. -/
theorem retriever_throwing_question :
    retrieverInvokeE engStrict [Chunk.mk "hello".toList []] "fix c++ bug".toList
      = Except.error "Invalid regular expression".toList := rfl

/-- C2 amended: for every regex engine, every Chunk Store and every question
whose keywords are all free of regular-expression metacharacters (so each
pattern the source hands to new RegExp is literal), retriever.invoke returns
normally with the literal-scoring context, and that context is the contents
of at most 6 chunks (the fixed design constant K): a selection of scored
chunks of length at most 6, every selected chunk an element of the store
carrying its occurrence-count score, the selection pairwise in descending
score order, joined with the blank-line separator.  For other questions the
engine may score by pattern semantics or throw at construction, in which case
invoke returns no context at all. -/
theorem retriever_topk_literal_keywords (eng : RegexEngine) (docs : List Chunk)
    (question : Str)
    (hsafe : ∀ kw ∈ keywordsOf question, ∀ c ∈ kw, regexSafeChar c = true) :
    retrieverInvokeE eng docs question = Except.ok (retrieverInvoke docs question)
    ∧ ∃ sel : List (Chunk × Nat),
      sel.length ≤ 6
      ∧ (∀ pr ∈ sel, pr.1 ∈ docs ∧ pr.2 = chunkScore (keywordsOf question) pr.1.pageContent)
      ∧ List.Pairwise (fun a b => b.2 ≤ a.2) sel
      ∧ retrieverInvoke docs question
          = List.intercalate sepBlank (sel.map (fun s => s.1.pageContent)) := by
  refine ⟨retrieverInvokeE_ok eng docs question hsafe, ?_⟩
  refine ⟨((scoreDocs docs (keywordsOf question)).mergeSort scoreLe).take 6, ?_, ?_, ?_, rfl⟩
  · exact List.length_take_le _ _
  · intro pr hpr
    have hmem : pr ∈ (scoreDocs docs (keywordsOf question)).mergeSort scoreLe :=
      List.mem_of_mem_take hpr
    rw [List.mem_mergeSort] at hmem
    unfold scoreDocs at hmem
    rw [List.mem_map] at hmem
    obtain ⟨doc, hdoc, heq⟩ := hmem
    rw [← heq]
    exact ⟨hdoc, rfl⟩
  · have hsorted : List.Pairwise (fun a b => scoreLe a b = true)
        ((scoreDocs docs (keywordsOf question)).mergeSort scoreLe) := by
      apply List.sorted_mergeSort
      · intro a b c hab hbc
        simp only [scoreLe, decide_eq_true_eq] at hab hbc ⊢
        omega
      · intro a b
        simp only [scoreLe, Bool.or_eq_true, decide_eq_true_eq]
        omega
    have hsub : List.Pairwise (fun a b => scoreLe a b = true)
        (((scoreDocs docs (keywordsOf question)).mergeSort scoreLe).take 6) :=
      hsorted.sublist (List.take_sublist 6 _)
    exact hsub.imp (fun h => by simpa only [scoreLe, decide_eq_true_eq] using h)

/-- Witness for the amended C2: the strict engine, a two-chunk store and a
metacharacter-free question. -/
theorem retriever_topk_literal_keywords_witness :
    (∀ kw ∈ keywordsOf "find bbb".toList, ∀ c ∈ kw, regexSafeChar c = true)
    ∧ (retrieverInvokeE engStrict
          [Chunk.mk "aaa bbb".toList [], Chunk.mk "bbb bbb".toList []] "find bbb".toList
        = Except.ok (retrieverInvoke
            [Chunk.mk "aaa bbb".toList [], Chunk.mk "bbb bbb".toList []] "find bbb".toList)
      ∧ ∃ sel : List (Chunk × Nat),
        sel.length ≤ 6
        ∧ (∀ pr ∈ sel, pr.1 ∈ [Chunk.mk "aaa bbb".toList [], Chunk.mk "bbb bbb".toList []]
            ∧ pr.2 = chunkScore (keywordsOf "find bbb".toList) pr.1.pageContent)
        ∧ List.Pairwise (fun a b => b.2 ≤ a.2) sel
        ∧ retrieverInvoke [Chunk.mk "aaa bbb".toList [], Chunk.mk "bbb bbb".toList []]
            "find bbb".toList
          = List.intercalate sepBlank (sel.map (fun s => s.1.pageContent))) :=
  ⟨by decide, retriever_topk_literal_keywords engStrict
      [Chunk.mk "aaa bbb".toList [], Chunk.mk "bbb bbb".toList []] "find bbb".toList
      (by decide)⟩

/-- C3: chain.invoke is total (it is a plain function into strings, never an
exception) and for every pair of possibly-throwing retrieval and generation
stages and every question, it either returns the successful generation result
or returns the string Error: m for the message m of the stage that failed. -/
theorem chain_total_error_string (retrieve generate : Str → Except Str Str) (question : Str) :
    (∃ ctx r, retrieve question = Except.ok ctx
      ∧ generate (assemblePrompt ctx question) = Except.ok r
      ∧ chainInvoke retrieve generate question = r)
    ∨ (∃ m, chainInvoke retrieve generate question = "Error: ".toList ++ m
        ∧ (retrieve question = Except.error m
           ∨ ∃ ctx, retrieve question = Except.ok ctx
               ∧ generate (assemblePrompt ctx question) = Except.error m)) := by
  cases hr : retrieve question with
  | error m =>
    right
    exact ⟨m, by simp [chainInvoke, hr], Or.inl rfl⟩
  | ok ctx =>
    cases hg : generate (assemblePrompt ctx question) with
    | error m =>
      right
      exact ⟨m, by simp [chainInvoke, hr, hg], Or.inr ⟨ctx, rfl, hg⟩⟩
    | ok r =>
      left
      exact ⟨ctx, r, rfl, hg, by simp [chainInvoke, hr, hg]⟩

/-- C6: whenever the debug Generator Adapter's service call raises, the adapter
catches the failure and returns exactly extractAnswer applied to the original
prompt text, after its single service call; being a plain function, it never
raises past its own boundary. -/
theorem generator_fallback_on_failure (svc : Str → Except Str (Option Str)) (input e : Str)
    (h : svc input = Except.error e) :
    llmInvokeDebug (some svc) input = (extractAnswer input, 1) := by
  simp [llmInvokeDebug, h]

/-- Witness for C6 at a concrete always-failing service and prompt. -/
theorem generator_fallback_on_failure_witness :
    (fun _ : Str => (Except.error "boom".toList : Except Str (Option Str))) "hi".toList
        = Except.error "boom".toList
    ∧ llmInvokeDebug (some (fun _ => Except.error "boom".toList)) "hi".toList
        = (extractAnswer "hi".toList, 1) :=
  ⟨rfl, generator_fallback_on_failure (fun _ => Except.error "boom".toList) "hi".toList
      "boom".toList rfl⟩

/-- C1 counterexample: with a generation credential configured, the main
variant's Generator Adapter issues zero calls to the external text-generation
service on this prompt, not one; its invoke body contains no service call and
goes directly to extraction. -/
theorem generator_main_zero_calls :
    (llmInvokeMain true "hello".toList).2 = 0 ∧ ¬(llmInvokeMain true "hello".toList).2 = 1 :=
  ⟨rfl, by decide⟩

/-- C1 amended: with a credential configured, the main variant makes no service
call and returns extractAnswer of the prompt text; the debug variant issues
one call with the full prompt text and, when that call succeeds with a
non-empty generated text, returns it verbatim. -/
theorem generator_adapter_behaviour (input t : Str) (svc : Str → Except Str (Option Str))
    (hgen : svc input = Except.ok (some t)) (hne : t.isEmpty = false) :
    llmInvokeMain true input = (extractAnswer input, 0)
    ∧ llmInvokeDebug (some svc) input = (t, 1) := by
  constructor
  · rfl
  · simp [llmInvokeDebug, hgen, hne]

/-- Witness for the amended C1 at a concrete succeeding service and prompt. -/
theorem generator_adapter_behaviour_witness :
    ((fun _ : Str => (Except.ok (some "ok".toList) : Except Str (Option Str))) "p".toList
        = Except.ok (some "ok".toList))
    ∧ ("ok".toList.isEmpty = false)
    ∧ (llmInvokeMain true "p".toList = (extractAnswer "p".toList, 0)
        ∧ llmInvokeDebug (some (fun _ => Except.ok (some "ok".toList))) "p".toList
            = ("ok".toList, 1)) :=
  ⟨rfl, rfl, generator_adapter_behaviour "p".toList "ok".toList _ rfl rfl⟩

/-- C9: invoking the retriever leaves the Chunk Store unchanged: the store
threaded through the call is the same list of chunks, in the same order, with
the same contents; the threaded call returns the same context as the plain
one, and re-querying the post-call store reproduces the same context. -/
theorem retriever_store_readonly (docs : List Chunk) (question : Str) :
    (retrieverInvokeWithStore docs question).2 = docs
    ∧ (retrieverInvokeWithStore docs question).1 = retrieverInvoke docs question
    ∧ retrieverInvoke (retrieverInvokeWithStore docs question).2 question
        = retrieverInvoke docs question :=
  ⟨rfl, rfl, rfl⟩

/-- C10: the debug variant's extractAnswer and the main variant's extractAnswer
are extensionally equal: on every input string they return the same string. -/
theorem extract_debug_eq_main (input : Str) : extractAnswerD input = extractAnswer input := rfl

/-- C7: when the parsed, lowercased question triggers both rule (a), containing
name and portfolio, and rule (b), containing experience and year, extractAnswer
resolves via rule (a) only: its result is the rule-(a) answer and is never the
rule-(b) answer (first match wins in the fixed priority order). -/
theorem extractor_rule_priority (p : Str)
    (hn : containsSub (lowerL (questionFieldRaw p)) "name".toList = true)
    (hp : containsSub (lowerL (questionFieldRaw p)) "portfolio".toList = true)
    (_he : containsSub (lowerL (questionFieldRaw p)) "experience".toList = true)
    (_hy : containsSub (lowerL (questionFieldRaw p)) "year".toList = true) :
    extractAnswer p = ruleAAnswer (lowerL (contextFieldRaw p))
    ∧ extractAnswer p ≠ ruleBAnswer (lowerL (contextFieldRaw p)) := by
  have hA := extractAnswer_ruleA hn hp
  refine ⟨hA, ?_⟩
  rw [hA]
  exact ruleA_ne_ruleB _ _

/-- Witness for C7 at a concrete prompt whose question triggers both rules. -/
theorem extractor_rule_priority_witness :
    (containsSub (lowerL (questionFieldRaw "Context:\nzz\n\nQuestion: name portfolio experience year\n\nAnswer (direct answer only):".toList)) "name".toList = true
      ∧ containsSub (lowerL (questionFieldRaw "Context:\nzz\n\nQuestion: name portfolio experience year\n\nAnswer (direct answer only):".toList)) "portfolio".toList = true
      ∧ containsSub (lowerL (questionFieldRaw "Context:\nzz\n\nQuestion: name portfolio experience year\n\nAnswer (direct answer only):".toList)) "experience".toList = true
      ∧ containsSub (lowerL (questionFieldRaw "Context:\nzz\n\nQuestion: name portfolio experience year\n\nAnswer (direct answer only):".toList)) "year".toList = true)
    ∧ (extractAnswer "Context:\nzz\n\nQuestion: name portfolio experience year\n\nAnswer (direct answer only):".toList
        = ruleAAnswer (lowerL (contextFieldRaw "Context:\nzz\n\nQuestion: name portfolio experience year\n\nAnswer (direct answer only):".toList))
      ∧ extractAnswer "Context:\nzz\n\nQuestion: name portfolio experience year\n\nAnswer (direct answer only):".toList
        ≠ ruleBAnswer (lowerL (contextFieldRaw "Context:\nzz\n\nQuestion: name portfolio experience year\n\nAnswer (direct answer only):".toList))) :=
  ⟨⟨by decide, by decide, by decide, by decide⟩,
    extractor_rule_priority _ (by decide) (by decide) (by decide) (by decide)⟩

/-- C4 counterexample: a prompt whose parsed question is the scenario question
and whose parsed context contains Navdeep Singh; extractAnswer returns the
lowercase matched text navdeep singh taken from the lowercased context, not
the capitalised literal Navdeep Singh the claim states. -/
theorem extract_name_counterexample :
    questionFieldRaw "Context:\nNavdeep Singh\n\nQuestion: name of the person whose portfolio is this?\n\nAnswer (direct answer only):".toList
      = "name of the person whose portfolio is this?".toList
    ∧ containsSub (contextFieldRaw "Context:\nNavdeep Singh\n\nQuestion: name of the person whose portfolio is this?\n\nAnswer (direct answer only):".toList) "Navdeep Singh".toList = true
    ∧ extractAnswer "Context:\nNavdeep Singh\n\nQuestion: name of the person whose portfolio is this?\n\nAnswer (direct answer only):".toList
      = "navdeep singh".toList
    ∧ ¬ extractAnswer "Context:\nNavdeep Singh\n\nQuestion: name of the person whose portfolio is this?\n\nAnswer (direct answer only):".toList
      = "Navdeep Singh".toList := by
  refine ⟨by decide, by decide, by decide, by decide⟩

/-- C4 amended: for every prompt whose parsed, lowercased question contains
name and portfolio and whose parsed context contains the text Navdeep Singh,
extractAnswer returns the literal matched text of the name pattern as found
in the lowercased context: lowercase navdeep, the matched whitespace run,
lowercase singh.  The capitalised Navdeep Singh literal is only the no-match
fallback. -/
theorem extract_name_lowercase_match (p : Str)
    (h1 : containsSub (lowerL (questionFieldRaw p)) "name".toList = true)
    (h2 : containsSub (lowerL (questionFieldRaw p)) "portfolio".toList = true)
    (h3 : containsSub (contextFieldRaw p) "Navdeep Singh".toList = true) :
    ∃ ws, 0 < ws.length ∧ (∀ c ∈ ws, isWsC c = true)
      ∧ extractAnswer p = "navdeep".toList ++ ws ++ "singh".toList := by
  obtain ⟨a, b, hab⟩ := containsSub_decomp h3
  have hlow : lowerL (contextFieldRaw p)
      = lowerL a ++ ("navdeep singh".toList ++ lowerL b) := by
    rw [hab]
    unfold lowerL
    rw [List.map_append, List.map_append]
    rw [List.append_assoc]
    rfl
  have hsome : (nameSearch (lowerL (contextFieldRaw p))).isSome = true := by
    apply nameSearch_isSome_of_occurrence
    refine ⟨lowerL a, lowerL b, ?_⟩
    rw [hlow, List.append_assoc]
  obtain ⟨r, hr⟩ := Option.isSome_iff_exists.mp hsome
  obtain ⟨ws, hws1, hws2, hshape⟩ := nameSearch_shape hr
  refine ⟨ws, hws1, hws2, ?_⟩
  rw [extractAnswer_ruleA h1 h2]
  unfold ruleAAnswer
  rw [hr, Option.getD_some, hshape]

/-- Witness for the amended C4 at the concrete scenario prompt. -/
theorem extract_name_lowercase_match_witness :
    (containsSub (lowerL (questionFieldRaw "Context:\nNavdeep Singh\n\nQuestion: name of the person whose portfolio is this?\n\nAnswer (direct answer only):".toList)) "name".toList = true
      ∧ containsSub (lowerL (questionFieldRaw "Context:\nNavdeep Singh\n\nQuestion: name of the person whose portfolio is this?\n\nAnswer (direct answer only):".toList)) "portfolio".toList = true
      ∧ containsSub (contextFieldRaw "Context:\nNavdeep Singh\n\nQuestion: name of the person whose portfolio is this?\n\nAnswer (direct answer only):".toList) "Navdeep Singh".toList = true)
    ∧ (∃ ws, 0 < ws.length ∧ (∀ c ∈ ws, isWsC c = true)
      ∧ extractAnswer "Context:\nNavdeep Singh\n\nQuestion: name of the person whose portfolio is this?\n\nAnswer (direct answer only):".toList
          = "navdeep".toList ++ ws ++ "singh".toList) :=
  ⟨⟨by decide, by decide, by decide⟩,
    extract_name_lowercase_match _ (by decide) (by decide) (by decide)⟩

/-- C8: for every question all of whose whitespace tokens have length at most 2
after lowercasing, the keyword set is empty, every chunk scores 0, and
retriever.invoke returns the contents of the first 6 chunks in store order
unchanged, joined with the blank-line separator; and, unconditionally for
every question, retriever.invoke on the empty Chunk Store returns the empty
context string (with no chunks there is nothing to score, so no pattern is
ever built). -/
theorem retriever_empty_keywords (docs : List Chunk) (question : Str) :
    ((∀ w ∈ splitWs (lowerL question), w.length ≤ 2) →
      keywordsOf question = []
      ∧ (∀ doc ∈ docs, chunkScore (keywordsOf question) doc.pageContent = 0)
      ∧ retrieverInvoke docs question
          = List.intercalate sepBlank ((docs.take 6).map (fun d => d.pageContent)))
    ∧ retrieverInvoke [] question = [] := by
  constructor
  · intro h
    have hkw : keywordsOf question = [] := by
      unfold keywordsOf
      rw [List.filter_eq_nil_iff]
      intro w hw
      have := h w hw
      simp only [decide_eq_true_eq]
      omega
    refine ⟨hkw, ?_, ?_⟩
    · intro doc _
      rw [hkw]
      rfl
    · unfold retrieverInvoke
      rw [hkw]
      have hscore : scoreDocs docs [] = docs.map (fun d => (d, (0 : Nat))) := rfl
      rw [hscore]
      have hsorted : (docs.map (fun d => (d, (0 : Nat)))).mergeSort scoreLe
          = docs.map (fun d => (d, (0 : Nat))) := by
        apply List.mergeSort_of_sorted
        rw [List.pairwise_map]
        exact pairwise_of_all _ (fun a b => rfl) docs
      rw [hsorted, ← List.map_take, List.map_map]
      rfl
  · simp [retrieverInvoke, scoreDocs, List.mergeSort_nil, List.intercalate]

/-- Witness for C8 at a concrete short-token question, a two-chunk store and
the empty store. -/
theorem retriever_empty_keywords_witness :
    (∀ w ∈ splitWs (lowerL "hi yo".toList), w.length ≤ 2)
    ∧ (keywordsOf "hi yo".toList = []
      ∧ (∀ doc ∈ [Chunk.mk "aaa".toList [], Chunk.mk "bbb".toList []],
          chunkScore (keywordsOf "hi yo".toList) doc.pageContent = 0)
      ∧ retrieverInvoke [Chunk.mk "aaa".toList [], Chunk.mk "bbb".toList []] "hi yo".toList
          = List.intercalate sepBlank
              (([Chunk.mk "aaa".toList [], Chunk.mk "bbb".toList []].take 6).map
                (fun d => d.pageContent)))
    ∧ retrieverInvoke [] "hi yo".toList = [] :=
  ⟨by decide,
    (retriever_empty_keywords [Chunk.mk "aaa".toList [], Chunk.mk "bbb".toList []]
      "hi yo".toList).1 (by decide),
    (retriever_empty_keywords [Chunk.mk "aaa".toList [], Chunk.mk "bbb".toList []]
      "hi yo".toList).2⟩

/-- C5: round-trip of the prompt parsing.  For a prompt text holding a
well-formed block, the question field is exactly the substring between the
first Question-colon-space marker and the next newline (a nonempty run of
dot characters), and the context field is exactly the substring between the
first Context marker and the first following blank-line-Question marker;
when a marker is absent the corresponding field is the empty string, and the
parser is a total function, so it never raises. -/
theorem extract_fields_roundtrip (s a q ctx b : Str) :
    (s = a ++ (qMarker ++ (q ++ '\n' :: b)) → q ≠ [] → (∀ c ∈ q, isDotC c = true) →
      (∀ i, i < a.length → hasPrefixL qMarker (List.drop i s) = false) →
      questionFieldRaw s = q)
    ∧ (s = a ++ (cStart ++ (ctx ++ (cEnd ++ b))) → ctx ≠ [] →
      (∀ i, i < a.length → hasPrefixL cStart (List.drop i s) = false) →
      (∀ j, 1 ≤ j → j < ctx.length →
        hasPrefixL cEnd (List.drop j (ctx ++ (cEnd ++ b))) = false) →
      contextFieldRaw s = ctx)
    ∧ (containsSub s qMarker = false → questionFieldRaw s = [])
    ∧ (containsSub s cStart = false → contextFieldRaw s = []) := by
  refine ⟨?_, ?_, ?_, ?_⟩
  · intro hs hq1 hq2 hpre
    subst hs
    have hskip : scanFirst qmatchAt (a ++ (qMarker ++ (q ++ '\n' :: b)))
        = scanFirst qmatchAt (qMarker ++ (q ++ '\n' :: b)) :=
      scanFirst_append_none qmatchAt a _ (fun i hi => qmatchAt_none (hpre i hi))
    have hhit : scanFirst qmatchAt (qMarker ++ (q ++ '\n' :: b)) = some q :=
      scanFirst_head_some (append_ne_nil_left (by decide)) (qmatchAt_eq q b hq1 hq2)
    unfold questionFieldRaw findQuestion
    rw [hskip, hhit]
    rfl
  · intro hs hc1 hpre hin
    subst hs
    have hskip : scanFirst cmatchAt (a ++ (cStart ++ (ctx ++ (cEnd ++ b))))
        = scanFirst cmatchAt (cStart ++ (ctx ++ (cEnd ++ b))) :=
      scanFirst_append_none cmatchAt a _ (fun i hi => cmatchAt_none (hpre i hi))
    have hhit : scanFirst cmatchAt (cStart ++ (ctx ++ (cEnd ++ b))) = some ctx :=
      scanFirst_head_some (append_ne_nil_left (by decide)) (cmatchAt_eq ctx b hc1 hin)
    unfold contextFieldRaw findContext
    rw [hskip, hhit]
    rfl
  · intro hcon
    unfold questionFieldRaw findQuestion
    rw [scanFirst_none (fun i => qmatchAt_none (not_hasPrefixL_of_not_containsSub hcon i))]
    rfl
  · intro hcon
    unfold contextFieldRaw findContext
    rw [scanFirst_none (fun i => cmatchAt_none (not_hasPrefixL_of_not_containsSub hcon i))]
    rfl

/-- Witness for C5: the question part and the context part are exercised on one
concrete well-formed prompt with two different decompositions, and the two
marker-absent parts on a markerless string. -/
theorem extract_fields_roundtrip_witness :
    questionFieldRaw "XContext:\nhello\n\nQuestion: hi there\n\nAnswer:".toList
        = "hi there".toList
    ∧ contextFieldRaw "XContext:\nhello\n\nQuestion: hi there\n\nAnswer:".toList
        = "hello".toList
    ∧ questionFieldRaw "plain".toList = []
    ∧ contextFieldRaw "plain".toList = [] :=
  ⟨(extract_fields_roundtrip "XContext:\nhello\n\nQuestion: hi there\n\nAnswer:".toList
      "XContext:\nhello\n\n".toList "hi there".toList [] "\nAnswer:".toList).1 (by decide)
      (by decide) (by decide) (by decide),
    (extract_fields_roundtrip "XContext:\nhello\n\nQuestion: hi there\n\nAnswer:".toList
      "X".toList [] "hello".toList " hi there\n\nAnswer:".toList).2.1 (by decide) (by decide)
      (by decide) (by decide),
    (extract_fields_roundtrip "plain".toList [] [] [] []).2.2.1 (by decide),
    (extract_fields_roundtrip "plain".toList [] [] [] []).2.2.2 (by decide)⟩
